import Mathlib

/-!
Verification of the remark-lint rule-execution core against five lint rules:
`remark-lint-code-block-style`, `remark-lint-blockquote-indentation`,
`remark-lint-no-duplicate-headings`, `remark-lint-maximum-heading-length`
and `remark-lint-checkbox-content-indent`.

The rules operate on mdast (unist) trees.  We embed the unist data model
(nodes with a kind, optional value / lang / checked fields, an optional
position made of start and end points) and the shared utilities the rules
use (`unist-util-generated`, `unist-util-position`, `unist-util-visit` in
document preorder, `mdast-util-to-string`, `unist-util-stringify-position`,
`vfile-location`), then each rule body as a fold over the visited node
list, exactly mirroring the JavaScript sources.  JavaScript strings are
modelled as Lean strings addressed by code-point index; JavaScript numbers
as `Int` (all numbers involved are integral); JavaScript truthiness is made
explicit (`null` and `0` and `""` are falsy).
-/

namespace Remark

/-- A unist point: 1-based line and column, 0-based character offset.
`unist-util-position` returns a point whose fields are `null` when a node
has no position; we represent that null point as line = column = offset = 0,
matching how the rules' arithmetic coerces `null` to `0`. -/
structure Point where
  line : Nat
  column : Nat
  offset : Nat
  deriving Repr, DecidableEq

/-- A unist position: the start and end points of a node. -/
structure Position where
  start : Point
  stop : Point
  deriving Repr, DecidableEq

mutual
/-- An mdast node: a kind tag (`code`, `heading`, `blockquote`, `listItem`,
`paragraph`, `text`, ...), the optional fields the five rules read
(`value` for literals, `lang` for code, `checked` for list items), an
optional position and the child list. -/
inductive Node where
  | mk (kind : String) (val : Option String) (lang : Option String)
      (checked : Option Bool) (pos : Option Position) (children : NodeList)
  deriving Repr, DecidableEq

/-- The children of a node (a specialised list, so that `Node` is a plain
mutual inductive and structural recursion over trees stays simple). -/
inductive NodeList where
  | nil
  | cons (head : Node) (tail : NodeList)
  deriving Repr, DecidableEq
end

def Node.kind : Node → String
  | .mk k _ _ _ _ _ => k

def Node.val : Node → Option String
  | .mk _ v _ _ _ _ => v

def Node.lang : Node → Option String
  | .mk _ _ l _ _ _ => l

def Node.checked : Node → Option Bool
  | .mk _ _ _ c _ _ => c

def Node.pos : Node → Option Position
  | .mk _ _ _ _ p _ => p

def Node.children : Node → NodeList
  | .mk _ _ _ _ _ ch => ch

def NodeList.toList : NodeList → List Node
  | .nil => []
  | .cons h t => h :: t.toList

/-- The children of a node as an ordinary list. -/
def Node.childList (n : Node) : List Node :=
  n.children.toList

/-- The null point `{line: null, column: null, offset: null}` that
`unist-util-position` yields for a node without a position, with `null`
read as `0` (how every arithmetic use in the rules coerces it). -/
def nullPoint : Point := ⟨0, 0, 0⟩

/-- `pointStart(node)` from `unist-util-position`. -/
def pointStart (n : Node) : Point :=
  match n.pos with
  | some p => p.start
  | none => nullPoint

/-- `pointEnd(node)` from `unist-util-position`. -/
def pointEnd (n : Node) : Point :=
  match n.pos with
  | some p => p.stop
  | none => nullPoint

/-- `generated(node)` from `unist-util-generated`: true when the node has
no position or any of the start/end line/column fields is missing
(falsy, hence also when it is 0). -/
def generated (n : Node) : Bool :=
  match n.pos with
  | none => true
  | some p =>
      p.start.line = 0 || p.start.column = 0 || p.stop.line = 0 || p.stop.column = 0

mutual
/-- Document preorder: the node itself, then its children left to right;
the order in which `unist-util-visit` fires the visitor. -/
def Node.preorder : Node → List Node
  | .mk k v l c p ch => .mk k v l c p ch :: NodeList.preorderL ch

def NodeList.preorderL : NodeList → List Node
  | .nil => []
  | .cons h t => Node.preorder h ++ NodeList.preorderL t
end

/-- `visit(tree, kind, visitor)` from `unist-util-visit` fires the visitor
on every node of the requested kind, in document preorder: the visited
nodes are the preorder filtered by kind. -/
def visitK (tree : Node) (kind : String) : List Node :=
  tree.preorder.filter (fun n => n.kind = kind)

mutual
/-- `toString(node)` from `mdast-util-to-string`: a literal's value when it
is non-empty (JavaScript `value.value ||` falls through on the empty
string), otherwise the concatenation over the children. -/
def Node.toStr : Node → String
  | .mk _ v _ _ _ ch =>
      match v with
      | some s => if s = "" then NodeList.toStrL ch else s
      | none => NodeList.toStrL ch

def NodeList.toStrL : NodeList → String
  | .nil => ""
  | .cons h t => Node.toStr h ++ NodeList.toStrL t
end

/-- `stringifyPosition(point)` from `unist-util-stringify-position` on a
point: `line:column`. -/
def stringifyPoint (p : Point) : String :=
  Nat.repr p.line ++ ":" ++ Nat.repr p.column

/-- Where a reported message points: a whole node's position (used when a
rule passes the node itself to `file.message`), a single point, or a
start/end pair of resolved points. -/
inductive Place where
  | node (pos : Option Position)
  | point (p : Point)
  | span (start stop : Option Point)
  deriving Repr, DecidableEq

/-- A diagnostic: the reason text and the place it is anchored at. -/
structure Message where
  text : String
  place : Place
  deriving Repr, DecidableEq

/-- The start offset a message is anchored at (0 when no position is
attached). -/
def Message.startOffset : Message → Nat
  | ⟨_, .node (some p)⟩ => p.start.offset
  | ⟨_, .node none⟩ => 0
  | ⟨_, .point p⟩ => p.offset
  | ⟨_, .span (some p) _⟩ => p.offset
  | ⟨_, .span none _⟩ => 0

/-- A rule's option as the rules inspect it: absent, a string, or a
number.  (`typeof option === 'string'` / `'number'` are the only dynamic
type tests the five rules perform.) -/
inductive JsOption where
  | undef
  | str (s : String)
  | num (n : Int)
  deriving Repr, DecidableEq

/-- JavaScript truthiness of a nullable string: `null` and `""` are falsy. -/
def jsStrTruthy : Option String → Bool
  | none => false
  | some s => s ≠ ""

/-- JavaScript truthiness of a nullable number: `null` and `0` are falsy. -/
def jsIntTruthy : Option Int → Bool
  | none => false
  | some i => i ≠ 0

/-- JavaScript's `String#toUpperCase`, on the ASCII letters the documents
under test use: uppercases every character. -/
def jsToUpperCase (s : String) : String :=
  String.mk (s.data.map Char.toUpper)

/-- JavaScript number-to-string coercion for integral numbers. -/
def jsNumRepr (i : Int) : String :=
  if i < 0 then "-" ++ Nat.repr i.natAbs else Nat.repr i.natAbs

/-- JavaScript's `String#slice(a, b)` over a character list: negative
indices count from the end, indices are clamped to the length. -/
def jsSliceList (cs : List Char) (a b : Int) : List Char :=
  let len : Int := cs.length
  let lo := (if a < 0 then max (len + a) 0 else min a len).toNat
  let hi := (if b < 0 then max (len + b) 0 else min b len).toNat
  (cs.take hi).drop lo

/-- The JavaScript regular-expression class `\s` (whitespace). -/
def isJsSpace (c : Char) : Bool :=
  c = ' ' || c = '\t' || c = '\n' || c = '\r' || c = '\x0b' || c = '\x0c' ||
  c = Char.ofNat 0xa0 || c = Char.ofNat 0x1680 ||
  (0x2000 ≤ c.toNat && c.toNat ≤ 0x200a) ||
  c = Char.ofNat 0x2028 || c = Char.ofNat 0x2029 || c = Char.ofNat 0x202f ||
  c = Char.ofNat 0x205f || c = Char.ofNat 0x3000 || c = Char.ofNat 0xfeff

/-- A fence character: a tilde or a backtick (U+0060). -/
def fenceChar (c : Char) : Bool :=
  c = '~' || c = Char.ofNat 0x60

/-- Whether a run of three identical fence characters starts here
(the `([~\x60])\1{2,}` part of the code-block-style test). -/
def fenceRun : List Char → Bool
  | c :: d :: e :: _ => fenceChar c && d = c && e = c
  | _ => false

/-- The test of `/^\s*([~\x60])\1{2,}/` against a string: optional leading
whitespace, then a run of three or more identical fence characters. -/
def fenceTest : List Char → Bool
  | [] => false
  | c :: rest => if isJsSpace c then fenceTest rest else fenceRun (c :: rest)

/-- The search of `/\[([\t xX])]/` in a string: some substring is an
opening bracket, a tab/space/x/X, and a closing bracket. -/
def checkboxTest : List Char → Bool
  | a :: b :: c :: rest =>
      (a = '[' && (b = '\t' || b = ' ' || b = 'x' || b = 'X') && c = ']') ||
      checkboxTest (b :: c :: rest)
  | _ => false

/-- How many tabs/spaces start the list (the `while (/[\t ]/.test(...))`
loop of checkbox-content-indent). -/
def countLeadingTabSpace : List Char → Nat
  | [] => 0
  | c :: rest => if c = ' ' || c = '\t' then countLeadingTabSpace rest + 1 else 0

/-- `location(file).toPoint(offset)` from `vfile-location`: resolves a
character offset to a line/column/offset point, defined for offsets up to
the text length; modelled for LF line endings, which all documents under
test use. -/
def toPoint (value : String) (offset : Nat) : Option Point :=
  if offset ≤ value.length then
    let pre := (value.toList.take offset)
    some ⟨pre.count '\n' + 1, (pre.reverse.takeWhile (fun c => c ≠ '\n')).length + 1, offset⟩
  else none

/-- The shared shape of every rule body: `visit` fires the callback on each
matching node in document order; the callback reads the per-invocation
state, may append messages, and may update the state.  We split the
callback into its emission and its state transition and fold over the
visited nodes. -/
def runRule {σ : Type} (stepState : σ → Node → σ) (emit : σ → Node → List Message)
    (s0 : σ) (nodes : List Node) : List Message :=
  (nodes.foldl (fun p n => (stepState p.1 n, p.2 ++ emit p.1 n)) (s0, ([] : List Message))).2

/-! ## remark-lint-code-block-style -/

/-- The lookup `styles[key] === true` against
`const styles = \x7bnull: true, fenced: true, indented: true\x7d`: a
JavaScript `null` property key is the string `"null"`, so the keys are
`"null"`, `"fenced"` and `"indented"`. -/
def stylesHas (key : String) : Bool :=
  key = "null" || key = "fenced" || key = "indented"

/-- The property key `preferred` is looked up and printed under: the
string itself, or `"null"` for the JavaScript `null`. -/
def prefKey : Option String → String
  | none => "null"
  | some s => s

/-- The style of one code node: `fenced` when `node.lang` is truthy or the
sliced source `value.slice(pointStart(node).offset, pointEnd(node).offset)`
starts (after whitespace) with a run of three or more identical fence
characters, otherwise `indented`. -/
def codeCurrent (value : String) (n : Node) : String :=
  if jsStrTruthy n.lang ||
      fenceTest (jsSliceList value.toList ((pointStart n).offset : Int) ((pointEnd n).offset : Int)) then
    "fenced"
  else "indented"

/-- The message code-block-style reports on a mismatching node. -/
def cbsMessage (preferred : String) (n : Node) : Message :=
  ⟨"Code blocks should be " ++ preferred, Place.node n.pos⟩

/-- The messages one visited code node contributes, given the current
`preferred` state (`if (generated(node)) return; ... if (preferred) \x7b if
(preferred !== current) file.message(...) \x7d`). -/
def cbsEmit (value : String) (pref : Option String) (n : Node) : List Message :=
  if generated n then []
  else if jsStrTruthy pref then
    if prefKey pref ≠ codeCurrent value n then [cbsMessage (prefKey pref) n] else []
  else []

/-- The `preferred` state after one visited code node (`else preferred =
current`). -/
def cbsStep (value : String) (pref : Option String) (n : Node) : Option String :=
  if generated n then pref
  else if jsStrTruthy pref then pref
  else some (codeCurrent value n)

/-- `typeof option === 'string' && option !== 'consistent' ? option :
null`: the initial `preferred` of code-block-style. -/
def cbsPreferred : JsOption → Option String
  | .str s => if s ≠ "consistent" then some s else none
  | _ => none

/-- `codeBlockStyle(tree, file, option)`: validation of the option (with
`file.fail`, which throws, modelled as `Except.error`), then the visit of
every code node. -/
def codeBlockStyle (tree : Node) (value : String) (option : JsOption) :
    Except String (List Message) :=
  let preferred := cbsPreferred option
  if stylesHas (prefKey preferred) then
    .ok (runRule (cbsStep value) (cbsEmit value) preferred (visitK tree "code"))
  else
    .error ("Incorrect code block style `" ++ prefKey preferred ++
      "`: use either `'consistent'`, `'fenced'`, or `'indented'`")

/-- The diagnostics of a code-block-style invocation: none when the
invocation failed on its option. -/
def cbsMessages : Except String (List Message) → List Message
  | .error _ => []
  | .ok l => l

/-! ## remark-lint-blockquote-indentation -/

/-- `check(node)`: the column of the start of the first child minus the
column of the start of the node (on the guarded path the children are
never empty; with no child, `pointStart(undefined)` has a null column,
coerced to 0 by the subtraction). -/
def check (n : Node) : Int :=
  match n.childList with
  | c :: _ => ((pointStart c).column : Int) - ((pointStart n).column : Int)
  | [] => 0 - ((pointStart n).column : Int)

/-- `plural('space', abs)` from `pluralize`, for a regular noun. -/
def plural (word : String) (count : Nat) : String :=
  if count = 1 then word else word ++ "s"

/-- The message blockquote-indentation reports when the preferred
indentation differs from the node's. -/
def bqMessage (preferred : Int) (n : Node) : Message :=
  let diff := preferred - check n
  ⟨(if diff > 0 then "Add" else "Remove") ++ " " ++ Nat.repr diff.natAbs ++ " " ++
      plural "space" diff.natAbs ++ " between block quote and content",
   Place.point (pointStart (match n.childList with | c :: _ => c | [] => n))⟩

/-- The messages one visited blockquote contributes (`if (generated(node)
|| node.children.length === 0) return; if (preferred) \x7b ... \x7d`); note the
JavaScript truthiness test on `preferred`: the number 0 and `null` both
fall into the inference branch. -/
def bqEmit (pref : Option Int) (n : Node) : List Message :=
  if generated n || n.childList.isEmpty then []
  else if jsIntTruthy pref then
    if (pref.getD 0) - check n = 0 then [] else [bqMessage (pref.getD 0) n]
  else []

/-- The `preferred` state after one visited blockquote (`else preferred =
check(node)`). -/
def bqStep (pref : Option Int) (n : Node) : Option Int :=
  if generated n || n.childList.isEmpty then pref
  else if jsIntTruthy pref then pref
  else some (check n)

/-- `typeof option === 'number' ? option : null`: the initial `preferred`
of blockquote-indentation. -/
def bqPreferred : JsOption → Option Int
  | .num i => some i
  | _ => none

/-- `blockquoteIndentation(tree, file, option)`. -/
def blockquoteIndentation (tree : Node) (option : JsOption) : List Message :=
  runRule bqStep bqEmit (bqPreferred option) (visitK tree "blockquote")

/-! ## remark-lint-maximum-heading-length -/

/-- The messages one visited heading contributes for a given numeric
threshold (`if (!generated(node) && toString(node).length > preferred)`). -/
def mhlEmit (preferred : Int) (_ : Unit) (n : Node) : List Message :=
  if !(generated n) && (preferred < ((Node.toStr n).length : Int)) then
    [⟨"Use headings shorter than `" ++ jsNumRepr preferred ++ "`", Place.node n.pos⟩]
  else []

/-- `typeof option === 'number' ? option : 60`: the threshold of
maximum-heading-length. -/
def mhlPreferred : JsOption → Int
  | .num i => i
  | _ => 60

/-- `remarkLintMaximumHeadingLength`: every heading longer than the
threshold is reported. -/
def maximumHeadingLength (tree : Node) (option : JsOption) : List Message :=
  runRule (fun s _ => s) (mhlEmit (mhlPreferred option)) () (visitK tree "heading")

/-! ## remark-lint-no-duplicate-headings -/

/-- The message no-duplicate-headings reports on a repeated heading:
anchored at the repeating node, citing the start point of the earlier one. -/
def ndhMessage (duplicate n : Node) : Message :=
  ⟨"Do not use headings with similar content (" ++
      stringifyPoint (pointStart duplicate) ++ ")",
   Place.node n.pos⟩

/-- The messages one visited heading contributes, given the map state
(`const duplicate = map[value]; if (duplicate) file.message(...)`); the
map keys are the uppercased plain-text contents, the most recent
assignment wins, so the map is an association list with the newest
binding in front. -/
def ndhEmit (map : List (String × Node)) (n : Node) : List Message :=
  if generated n then []
  else
    match map.lookup (jsToUpperCase (Node.toStr n)) with
    | some duplicate => [ndhMessage duplicate n]
    | none => []

/-- The map state after one visited heading (`map[value] = node`). -/
def ndhStep (map : List (String × Node)) (n : Node) : List (String × Node) :=
  if generated n then map
  else (jsToUpperCase (Node.toStr n), n) :: map

/-- `remarkLintNoDuplicateHeadings`. -/
def noDuplicateHeadings (tree : Node) : List Message :=
  runRule ndhStep ndhEmit [] (visitK tree "heading")

/-! ## remark-lint-checkbox-content-indent -/

/-- The messages one visited list item contributes (`if (typeof
node.checked !== 'boolean' || generated(node)) return; ...`). -/
def cciEmit (value : String) (_ : Unit) (n : Node) : List Message :=
  if n.checked.isNone || generated n then []
  else
    let point :=
      match n.childList with
      | [] => pointEnd n
      | c :: _ => pointStart c
    if !(checkboxTest (jsSliceList value.toList ((point.offset : Int) - 4) ((point.offset : Int) + 1))) then
      []
    else
      let initial := point.offset
      let final := initial + countLeadingTabSpace (value.toList.drop initial)
      if final - initial > 0 then
        [⟨"Checkboxes should be followed by a single character",
          Place.span (toPoint value initial) (toPoint value final)⟩]
      else []

/-- `remarkLintCheckboxContentIndent`. -/
def checkboxContentIndent (tree : Node) (value : String) : List Message :=
  runRule (fun s _ => s) (cciEmit value) () (visitK tree "listItem")

/-! ## Well-formed parse trees

A tree produced by the Markdown parser carries consistent positions: every
node has one, with start before end, children lying inside their parent
and following siblings starting no earlier than preceding siblings end.
The ordering claims hold for such trees. -/

/-- The start offset of a node (0 for a positionless node). -/
def Node.startOff (n : Node) : Nat := (pointStart n).offset

/-- The end offset of a node (0 for a positionless node). -/
def Node.stopOff (n : Node) : Nat := (pointEnd n).offset

/-- Successive siblings do not overlap: each ends no later than the next
starts. -/
def spansOrdered : List Node → Bool
  | a :: b :: r => (a.stopOff ≤ b.startOff) && spansOrdered (b :: r)
  | _ => true

/-- The local conditions of one node of a parser-produced tree: it has a
position with real (nonzero) lines and columns, its span is ordered, its
children lie inside it and do not overlap. -/
def nodeOk (n : Node) : Bool :=
  n.pos.isSome && !(generated n) && n.startOff ≤ n.stopOff &&
  n.childList.all (fun c => n.startOff ≤ c.startOff && c.stopOff ≤ n.stopOff) &&
  spansOrdered n.childList

/-- A well-formed parse tree: every node of it satisfies `nodeOk`. -/
def wfB (n : Node) : Bool := n.preorder.all nodeOk

/-- The earliest offset a rule may anchor a diagnostic about `n` at, other
than `n`'s own start: the start of the first child when there is one
(blockquote-indentation and checkbox-content-indent anchor there), else
the end of `n` (checkbox-content-indent on a childless item). -/
def low (n : Node) : Nat :=
  match n.childList with
  | [] => n.stopOff
  | c :: _ => c.startOff

/-! ## The duplicate-headings behaviour, restated declaratively -/

/-- Specification-shaped restatement of no-duplicate-headings: walking the
(non-generated) headings in document order, a heading is reported exactly
when some earlier heading has the same uppercased plain-text content, and
the message cites the start point of the most recent such heading. -/
def ndhSpec : List Node → List Node → List Message
  | _, [] => []
  | earlier, n :: rest =>
      (match earlier.reverse.find?
          (fun m => jsToUpperCase (Node.toStr m) = jsToUpperCase (Node.toStr n)) with
       | some dup => [ndhMessage dup n]
       | none => []) ++ ndhSpec (earlier ++ [n]) rest

/-- The association-list image of the headings seen so far, newest first:
the value of the rule's `map` object after those assignments. -/
def ndhMapOf (earlier : List Node) : List (String × Node) :=
  earlier.reverse.map (fun m => (jsToUpperCase (Node.toStr m), m))

/-! ## Concrete documents -/

/-- A position from explicit coordinates. -/
def posn (l1 c1 o1 l2 c2 o2 : Nat) : Option Position :=
  some ⟨⟨l1, c1, o1⟩, ⟨l2, c2, o2⟩⟩

/-- Children from a list literal. -/
def nl : List Node → NodeList
  | [] => .nil
  | n :: ns => .cons n (nl ns)

def textN (s : String) (p : Option Position) : Node := .mk "text" (some s) none none p .nil

def codeN (lang : Option String) (p : Option Position) : Node := .mk "code" none lang none p .nil

def paraN (p : Option Position) (ch : List Node) : Node := .mk "paragraph" none none none p (nl ch)

def bqN (p : Option Position) (ch : List Node) : Node := .mk "blockquote" none none none p (nl ch)

def headingN (p : Option Position) (ch : List Node) : Node := .mk "heading" none none none p (nl ch)

def liN (chk : Option Bool) (p : Option Position) (ch : List Node) : Node :=
  .mk "listItem" none none chk p (nl ch)

def rootN (p : Option Position) (ch : List Node) : Node := .mk "root" none none none p (nl ch)

/-- The source of scenario A: an indented code block, a paragraph, a
fenced code block. -/
def docA : String := "    alpha();\n\nParagraph.\n\n```\nbravo();\n```\n"

/-- The indented code block of `docA` (line 1). -/
def code1 : Node := codeN none (posn 1 1 0 1 13 12)

/-- The fenced code block of `docA` (lines 5-7). -/
def code2 : Node := codeN none (posn 5 1 26 7 4 42)

/-- The parse tree of `docA`. -/
def treeA : Node :=
  rootN (posn 1 1 0 8 1 43)
    [code1,
     paraN (posn 3 1 14 3 11 24) [textN "Paragraph." (posn 3 1 14 3 11 24)],
     code2]

/-- A block quote of indentation 3 (`>  Hello`, line 1). -/
def bq1 : Node :=
  bqN (posn 1 1 0 1 9 8) [paraN (posn 1 4 3 1 9 8) [textN "Hello" (posn 1 4 3 1 9 8)]]

/-- A block quote of indentation 4 (`>   World`, line 5). -/
def bq2 : Node :=
  bqN (posn 5 1 22 5 10 31) [paraN (posn 5 5 26 5 10 31) [textN "World" (posn 5 5 26 5 10 31)]]

/-- A block quote of indentation 2 (`> World`, line 9). -/
def bq3 : Node :=
  bqN (posn 9 1 46 9 8 53) [paraN (posn 9 3 48 9 8 53) [textN "World" (posn 9 3 48 9 8 53)]]

/-- The tree of the blockquote-indentation `not-ok.md` example: three
block quotes of indentations 3, 4 and 2 separated by paragraphs. -/
def treeB : Node :=
  rootN (posn 1 1 0 10 1 54)
    [bq1,
     paraN (posn 3 1 10 3 11 20) [textN "Paragraph." (posn 3 1 10 3 11 20)],
     bq2,
     paraN (posn 7 1 33 7 11 43) [textN "Paragraph." (posn 7 1 33 7 11 43)],
     bq3]

/-- A block quote whose content starts at the block quote's own column:
extracted indentation 0 (falsy in JavaScript). -/
def bqZ : Node :=
  bqN (posn 1 1 0 1 9 8) [paraN (posn 1 1 0 1 9 8) [textN "Hello" (posn 1 1 0 1 9 8)]]

/-- A block quote of indentation 2 on line 3. -/
def bqT : Node :=
  bqN (posn 3 1 10 3 8 17) [paraN (posn 3 3 12 3 8 17) [textN "World" (posn 3 3 12 3 8 17)]]

/-- A non-generated block quote with no children. -/
def bqE : Node := bqN (posn 1 1 0 1 2 1) []

/-- A document whose first block quote has extracted indentation 0 and
whose second has indentation 2. -/
def treeZ : Node := rootN (posn 1 1 0 4 1 18) [bqZ, bqT]

/-- A document with a single block quote of indentation 2. -/
def treeT : Node := rootN (posn 1 1 0 4 1 18) [bqT]

/-- A document with a single childless block quote. -/
def treeE : Node := rootN (posn 1 1 0 2 1 2) [bqE]

/-- First `# Foo` heading. -/
def h7a : Node := headingN (posn 1 1 0 1 6 5) [textN "Foo" (posn 1 3 2 1 6 5)]

/-- Second `## Foo` heading. -/
def h7b : Node := headingN (posn 3 1 7 3 7 13) [textN "Foo" (posn 3 4 10 3 7 13)]

/-- Third heading with distinct text `Bar`. -/
def h7c : Node := headingN (posn 5 1 15 5 7 21) [textN "Bar" (posn 5 4 18 5 7 21)]

/-- Headings `Foo`, `Foo`, `Bar`. -/
def treeH7 : Node := rootN (posn 1 1 0 6 1 22) [h7a, h7b, h7c]

/-- Heading `Foo` (line 1). -/
def hU1 : Node := headingN (posn 1 1 0 1 6 5) [textN "Foo" (posn 1 3 2 1 6 5)]

/-- Heading `foo` (line 3): differs from `Foo` only in case. -/
def hU2 : Node := headingN (posn 3 1 7 3 7 13) [textN "foo" (posn 3 4 10 3 7 13)]

/-- Heading `FOO` (line 5): same normalized content again. -/
def hU3 : Node := headingN (posn 5 1 15 5 8 22) [textN "FOO" (posn 5 5 19 5 8 22)]

/-- Headings `Foo`, `foo`, `FOO`. -/
def treeU : Node := rootN (posn 1 1 0 6 1 23) [hU1, hU2, hU3]

/-- A 52-character heading text. -/
def textLong : String := "Alpha bravo charlie delta echo foxtrot golf hotel ha"

/-- A heading whose plain-text content has length 52. -/
def hLong : Node := headingN (posn 1 1 0 1 55 54) [textN textLong (posn 1 3 2 1 55 54)]

/-- A document with one 52-character heading. -/
def treeL : Node := rootN (posn 1 1 0 2 1 55) [hLong]

/-- A 40-character heading text. -/
def text40 : String := "Alpha bravo charlie delta echo foxtrots."

/-- A heading whose plain-text content has length exactly 40. -/
def h40 : Node := headingN (posn 1 1 0 1 43 42) [textN text40 (posn 1 3 2 1 43 42)]

/-- A document with one 40-character heading. -/
def treeL40 : Node := rootN (posn 1 1 0 2 1 43) [h40]

/-- A document with no code block, block quote, heading or list item. -/
def treeP : Node :=
  rootN (posn 1 1 0 2 1 6) [paraN (posn 1 1 0 1 6 5) [textN "Plain" (posn 1 1 0 1 6 5)]]

/-- The source of the checkbox-content-indent `not-ok.md` example. -/
def docC : String :=
  "- [ ] List item\n+ [x]  List item\n* [X]   List item\n- [ ]    List item\n"

def li1 : Node :=
  liN (some false) (posn 1 1 0 1 16 15)
    [paraN (posn 1 7 6 1 16 15) [textN "List item" (posn 1 7 6 1 16 15)]]

def li2 : Node :=
  liN (some true) (posn 2 1 16 2 17 32)
    [paraN (posn 2 7 22 2 17 32) [textN "List item" (posn 2 7 22 2 17 32)]]

def li3 : Node :=
  liN (some true) (posn 3 1 33 3 18 50)
    [paraN (posn 3 7 39 3 18 50) [textN "List item" (posn 3 7 39 3 18 50)]]

def li4 : Node :=
  liN (some false) (posn 4 1 51 4 19 69)
    [paraN (posn 4 7 57 4 19 69) [textN "List item" (posn 4 7 57 4 19 69)]]

/-- The parse tree of `docC`: a list of four checkbox items, the last
three with extra whitespace after the checkbox. -/
def treeC : Node :=
  rootN (posn 1 1 0 4 19 69)
    [Node.mk "list" none none none (posn 1 1 0 4 19 69) (nl [li1, li2, li3, li4])]

/-! ## Basic facts about the rule runner -/

theorem foldl_emit_acc {σ : Type} (stepState : σ → Node → σ) (emit : σ → Node → List Message) :
    ∀ (nodes : List Node) (s : σ) (acc : List Message),
      (nodes.foldl (fun p n => (stepState p.1 n, p.2 ++ emit p.1 n)) (s, acc)).2
        = acc ++ (nodes.foldl (fun p n => (stepState p.1 n, p.2 ++ emit p.1 n)) (s, [])).2
  | [], s, acc => by simp
  | n :: ns, s, acc => by
      simp only [List.foldl_cons]
      rw [foldl_emit_acc stepState emit ns (stepState s n) (acc ++ emit s n),
        foldl_emit_acc stepState emit ns (stepState s n) ([] ++ emit s n)]
      simp

theorem runRule_nil {σ : Type} (stepState : σ → Node → σ) (emit : σ → Node → List Message)
    (s : σ) : runRule stepState emit s [] = [] := rfl

theorem runRule_cons {σ : Type} (stepState : σ → Node → σ) (emit : σ → Node → List Message)
    (s : σ) (n : Node) (ns : List Node) :
    runRule stepState emit s (n :: ns) = emit s n ++ runRule stepState emit (stepState s n) ns := by
  unfold runRule
  simp only [List.foldl_cons]
  rw [foldl_emit_acc]
  simp

/-- A rule whose callback returns without reporting or updating on nodes
failing a predicate behaves as if those nodes were never visited. -/
theorem runRule_skip_filter {σ : Type} (stepState : σ → Node → σ) (emit : σ → Node → List Message)
    (pred : Node → Bool)
    (hstep : ∀ s n, pred n = false → stepState s n = s)
    (hemit : ∀ s n, pred n = false → emit s n = []) :
    ∀ (nodes : List Node) (s : σ),
      runRule stepState emit s nodes = runRule stepState emit s (nodes.filter pred)
  | [], s => rfl
  | n :: ns, s => by
      by_cases h : pred n = true
      · rw [List.filter_cons_of_pos h, runRule_cons, runRule_cons,
          runRule_skip_filter stepState emit pred hstep hemit ns]
      · have h' : pred n = false := by revert h; cases pred n <;> simp
        rw [List.filter_cons_of_neg (by simp [h']), runRule_cons, hemit s n h', hstep s n h',
          runRule_skip_filter stepState emit pred hstep hemit ns]
        simp

/-- A rule whose state is stationary over the visited nodes reports, node
by node, exactly what its callback emits there. -/
theorem runRule_const_filterMap {σ : Type} (stepState : σ → Node → σ)
    (emit : σ → Node → List Message) (s : σ) (g : Node → Option Message) :
    ∀ nodes : List Node, (∀ n ∈ nodes, stepState s n = s) →
      (∀ n ∈ nodes, emit s n = (g n).toList) →
      runRule stepState emit s nodes = nodes.filterMap g
  | [], _, _ => rfl
  | n :: ns, hs, hg => by
      rw [runRule_cons, hs n (by simp), hg n (by simp),
        runRule_const_filterMap stepState emit s g ns
          (fun x hx => hs x (by simp [hx])) (fun x hx => hg x (by simp [hx]))]
      cases hgn : g n <;> simp [List.filterMap_cons, hgn]

/-- Every reported message was emitted by the callback at some visited
node. -/
theorem runRule_mem {σ : Type} (stepState : σ → Node → σ) (emit : σ → Node → List Message) :
    ∀ (nodes : List Node) (s : σ) (m : Message), m ∈ runRule stepState emit s nodes →
      ∃ s' n, n ∈ nodes ∧ m ∈ emit s' n
  | [], s, m, hm => by simp [runRule_nil] at hm
  | n :: ns, s, m, hm => by
      rw [runRule_cons] at hm
      rcases List.mem_append.mp hm with h | h
      · exact ⟨s, n, by simp, h⟩
      · obtain ⟨s', x, hx, hmx⟩ := runRule_mem stepState emit ns (stepState s n) m h
        exact ⟨s', x, by simp [hx], hmx⟩

/-- Every reported message was emitted at some visited non-generated node,
when the callback skips generated nodes. -/
theorem runRule_mem_of_skip {σ : Type} (stepState : σ → Node → σ)
    (emit : σ → Node → List Message)
    (hemit : ∀ s n, generated n = true → emit s n = [])
    (nodes : List Node) (s : σ) (m : Message) (hm : m ∈ runRule stepState emit s nodes) :
    ∃ s' n, n ∈ nodes ∧ generated n = false ∧ m ∈ emit s' n := by
  obtain ⟨s', n, hn, hmn⟩ := runRule_mem stepState emit nodes s m hm
  by_cases hg : generated n = true
  · rw [hemit s' n hg] at hmn
    simp at hmn
  · exact ⟨s', n, hn, eq_false_of_ne_true hg, hmn⟩

/-! ## Each callback returns without reporting on a generated node -/

theorem cbsEmit_generated (value : String) (s : Option String) (n : Node)
    (h : generated n = true) : cbsEmit value s n = [] := by
  simp [cbsEmit, h]

theorem bqEmit_generated (s : Option Int) (n : Node)
    (h : generated n = true) : bqEmit s n = [] := by
  simp [bqEmit, h]

theorem mhlEmit_generated (p : Int) (u : Unit) (n : Node)
    (h : generated n = true) : mhlEmit p u n = [] := by
  simp [mhlEmit, h]

theorem ndhEmit_generated (s : List (String × Node)) (n : Node)
    (h : generated n = true) : ndhEmit s n = [] := by
  simp [ndhEmit, h]

theorem cciEmit_generated (value : String) (u : Unit) (n : Node)
    (h : generated n = true) : cciEmit value u n = [] := by
  simp [cciEmit, h]

/-- The blockquote-indentation fold started from any two falsy preferred
values (the JavaScript `null`, or the number 0) behaves identically. -/
theorem bq_run_falsy : ∀ (nodes : List Node) (p q : Option Int),
    jsIntTruthy p = false → jsIntTruthy q = false →
    runRule bqStep bqEmit p nodes = runRule bqStep bqEmit q nodes
  | [], _, _, _, _ => rfl
  | n :: ns, p, q, hp, hq => by
      have hep : bqEmit p n = [] := by simp [bqEmit, hp]
      have heq : bqEmit q n = [] := by simp [bqEmit, hq]
      rw [runRule_cons, runRule_cons, hep, heq]
      simp only [List.nil_append]
      by_cases hskip : (generated n || n.childList.isEmpty) = true
      · rw [show bqStep p n = p from by simp [bqStep, hskip],
          show bqStep q n = q from by simp [bqStep, hskip]]
        exact bq_run_falsy ns p q hp hq
      · have h' := eq_false_of_ne_true hskip
        rw [show bqStep p n = some (check n) from by simp [bqStep, h', hp],
          show bqStep q n = some (check n) from by simp [bqStep, h', hq]]

/-- The successful branch of code-block-style: a validated option runs
the visit. -/
theorem codeBlockStyle_ok (tree : Node) (value : String) (opt : JsOption)
    (h : stylesHas (prefKey (cbsPreferred opt)) = true) :
    codeBlockStyle tree value opt
      = .ok (runRule (cbsStep value) (cbsEmit value) (cbsPreferred opt) (visitK tree "code")) := by
  unfold codeBlockStyle
  rw [if_pos h]

/-- The failing branch of code-block-style: an option outside the style
table aborts with the configuration error, before any visit. -/
theorem codeBlockStyle_error (tree : Node) (value : String) (opt : JsOption)
    (h : stylesHas (prefKey (cbsPreferred opt)) = false) :
    codeBlockStyle tree value opt
      = .error ("Incorrect code block style `" ++ prefKey (cbsPreferred opt) ++
          "`: use either `'consistent'`, `'fenced'`, or `'indented'`") := by
  unfold codeBlockStyle
  rw [if_neg (by simp [h])]

/-! ## Claims -/

/-- C9: for the blockquote-indentation rule, the numeric option 0 produces
on every document exactly the diagnostics of the absent option: 0 is falsy
in JavaScript, so it is not used as a fixed preferred indentation and the
rule falls through to consistent-mode inference. -/
theorem blockquote_zero_option_is_consistent (tree : Node) :
    blockquoteIndentation tree (.num 0) = blockquoteIndentation tree .undef := by
  unfold blockquoteIndentation
  exact bq_run_falsy (visitK tree "blockquote") (some 0) none (by decide) (by decide)

/-- C5: on a document with zero nodes of the kind a rule matches, the rule
produces zero diagnostics, whatever the option (an invalid option may
still abort code-block-style, which likewise yields no diagnostics). -/
theorem no_matches_no_diagnostics (tree : Node) (value : String) (opt : JsOption) :
    (visitK tree "code" = [] → cbsMessages (codeBlockStyle tree value opt) = [])
    ∧ (visitK tree "blockquote" = [] → blockquoteIndentation tree opt = [])
    ∧ (visitK tree "heading" = [] → maximumHeadingLength tree opt = [])
    ∧ (visitK tree "heading" = [] → noDuplicateHeadings tree = [])
    ∧ (visitK tree "listItem" = [] → checkboxContentIndent tree value = []) := by
  refine ⟨?_, ?_, ?_, ?_, ?_⟩ <;> intro h
  · by_cases hv : stylesHas (prefKey (cbsPreferred opt)) = true
    · rw [codeBlockStyle_ok tree value opt hv, h, runRule_nil]
      rfl
    · rw [codeBlockStyle_error tree value opt (by revert hv; cases stylesHas (prefKey (cbsPreferred opt)) <;> simp)]
      rfl
  · unfold blockquoteIndentation
    rw [h, runRule_nil]
  · unfold maximumHeadingLength
    rw [h, runRule_nil]
  · unfold noDuplicateHeadings
    rw [h, runRule_nil]
  · unfold checkboxContentIndent
    rw [h, runRule_nil]

/-- C5 witness: on a document holding only a paragraph, every rule reports
nothing, for a sample of option values. -/
theorem no_matches_no_diagnostics_witness :
    cbsMessages (codeBlockStyle treeP "Plain\n" (.str "💩")) = []
    ∧ blockquoteIndentation treeP (.num 7) = []
    ∧ maximumHeadingLength treeP .undef = []
    ∧ noDuplicateHeadings treeP = []
    ∧ checkboxContentIndent treeP "Plain\n" = [] :=
  ⟨(no_matches_no_diagnostics treeP "Plain\n" (.str "💩")).1 (by decide),
   (no_matches_no_diagnostics treeP "Plain\n" (.num 7)).2.1 (by decide),
   (no_matches_no_diagnostics treeP "Plain\n" .undef).2.2.1 (by decide),
   (no_matches_no_diagnostics treeP "Plain\n" .undef).2.2.2.1 (by decide),
   (no_matches_no_diagnostics treeP "Plain\n" .undef).2.2.2.2 (by decide)⟩

/-- C3: a generated node is never the subject of a diagnostic: every
message any of the five rules reports was emitted by its callback at a
visited node that is not generated (the callbacks return early on
generated nodes instead of reporting or raising). -/
theorem generated_never_subject (tree : Node) (value : String) (opt : JsOption) :
    (∀ m ∈ cbsMessages (codeBlockStyle tree value opt),
        ∃ s n, n ∈ visitK tree "code" ∧ generated n = false ∧ m ∈ cbsEmit value s n)
    ∧ (∀ m ∈ blockquoteIndentation tree opt,
        ∃ s n, n ∈ visitK tree "blockquote" ∧ generated n = false ∧ m ∈ bqEmit s n)
    ∧ (∀ m ∈ maximumHeadingLength tree opt,
        ∃ p n, n ∈ visitK tree "heading" ∧ generated n = false ∧ m ∈ mhlEmit p () n)
    ∧ (∀ m ∈ noDuplicateHeadings tree,
        ∃ s n, n ∈ visitK tree "heading" ∧ generated n = false ∧ m ∈ ndhEmit s n)
    ∧ (∀ m ∈ checkboxContentIndent tree value,
        ∃ n, n ∈ visitK tree "listItem" ∧ generated n = false ∧ m ∈ cciEmit value () n) := by
  refine ⟨?_, ?_, ?_, ?_, ?_⟩ <;> intro m hm
  · by_cases hv : stylesHas (prefKey (cbsPreferred opt)) = true
    · rw [codeBlockStyle_ok tree value opt hv] at hm
      exact runRule_mem_of_skip _ _ (cbsEmit_generated value) _ _ m hm
    · rw [codeBlockStyle_error tree value opt
        (by revert hv; cases stylesHas (prefKey (cbsPreferred opt)) <;> simp)] at hm
      simp [cbsMessages] at hm
  · unfold blockquoteIndentation at hm
    exact runRule_mem_of_skip _ _ bqEmit_generated _ _ m hm
  · unfold maximumHeadingLength at hm
    obtain ⟨s', n, hn, hg, hmn⟩ := runRule_mem_of_skip _ _
      (mhlEmit_generated (mhlPreferred opt)) _ _ m hm
    exact ⟨_, n, hn, hg, hmn⟩
  · unfold noDuplicateHeadings at hm
    exact runRule_mem_of_skip _ _ ndhEmit_generated _ _ m hm
  · unfold checkboxContentIndent at hm
    obtain ⟨s', n, hn, hg, hmn⟩ := runRule_mem_of_skip _ _ (cciEmit_generated value) _ _ m hm
    exact ⟨n, hn, hg, hmn⟩

/-- C3 witness: the first blockquote-indentation diagnostic on the
three-blockquote document was emitted at a visited non-generated node. -/
theorem generated_never_subject_witness :
    ∃ s n, n ∈ visitK treeB "blockquote" ∧ generated n = false ∧ bqMessage 3 bq2 ∈ bqEmit s n :=
  (generated_never_subject treeB "" .undef).2.1 (bqMessage 3 bq2) (by decide)

/-- C4 counterexample: the string option `"null"` is none of
`consistent`, `fenced`, `indented`, yet code-block-style does not fail on
it: the JavaScript style table `\x7bnull: true, ...\x7d` stores the `null`
sentinel under the property key `"null"`, so the string `"null"` passes
validation and the rule runs, comparing every block against the style
`"null"`. -/
theorem cbs_option_null_not_rejected :
    ("null" ≠ "consistent" ∧ "null" ≠ "fenced" ∧ "null" ≠ "indented")
    ∧ codeBlockStyle treeA docA (.str "null")
        = .ok [cbsMessage "null" code1, cbsMessage "null" code2] := by
  exact ⟨⟨by decide, by decide, by decide⟩, by rfl⟩

/-- C4 (amended): a string option other than `"consistent"`, `"fenced"`,
`"indented"` — and other than `"null"`, which the style table accidentally
admits — is rejected eagerly: the invocation fails with the
configuration-error message enumerating the legal values, and no other
diagnostic is produced (the visit never runs). -/
theorem cbs_invalid_option_fails (s : String)
    (h1 : s ≠ "consistent") (h2 : s ≠ "fenced") (h3 : s ≠ "indented") (h4 : s ≠ "null")
    (tree : Node) (value : String) :
    codeBlockStyle tree value (.str s)
      = .error ("Incorrect code block style `" ++ s ++
          "`: use either `'consistent'`, `'fenced'`, or `'indented'`") := by
  have hpref : cbsPreferred (.str s) = some s := by
    simp [cbsPreferred, h1]
  have hkey : prefKey (cbsPreferred (.str s)) = s := by
    rw [hpref]
    rfl
  have hv : stylesHas (prefKey (cbsPreferred (.str s))) = false := by
    rw [hkey]
    simp [stylesHas, h2, h3, h4]
  rw [codeBlockStyle_error tree value (.str s) hv, hkey]

/-- C4 witness: the option `"💩"` is rejected with the configuration
error. -/
theorem cbs_invalid_option_fails_witness :
    ("💩" ≠ "consistent" ∧ "💩" ≠ "fenced" ∧ "💩" ≠ "indented" ∧ "💩" ≠ "null")
    ∧ codeBlockStyle treeA docA (.str "💩")
        = .error ("Incorrect code block style `" ++ "💩" ++
            "`: use either `'consistent'`, `'fenced'`, or `'indented'`") :=
  ⟨⟨by decide, by decide, by decide, by decide⟩,
   cbs_invalid_option_fails "💩" (by decide) (by decide) (by decide) (by decide) treeA docA⟩

/-- C7: on headings `Foo`, `Foo`, `Bar`, no-duplicate-headings reports
exactly one diagnostic, anchored at the second `Foo` heading, whose
message cites the start position `1:1` of the first. -/
theorem ndh_scenario_duplicates :
    noDuplicateHeadings treeH7
      = [⟨"Do not use headings with similar content (1:1)", Place.node h7b.pos⟩]
    ∧ stringifyPoint (pointStart h7a) = "1:1"
    ∧ Node.toStr h7a = "Foo" ∧ Node.toStr h7b = "Foo" ∧ Node.toStr h7c = "Bar" := by
  exact ⟨by rfl, by rfl, by rfl, by rfl, by rfl⟩

/-- C6: with numeric option 40, maximum-heading-length reports exactly the
non-generated headings whose plain-text length exceeds 40; in particular
the 52-character heading yields exactly one diagnostic anchored at it, and
a 40-character heading yields none. -/
theorem mhl_option_40 :
    (∀ tree : Node,
        maximumHeadingLength tree (.num 40)
          = (visitK tree "heading").filterMap (fun n =>
              if !(generated n) && ((40 : Int) < ((Node.toStr n).length : Int)) then
                some ⟨"Use headings shorter than `40`", Place.node n.pos⟩
              else none))
    ∧ (Node.toStr hLong).length = 52
    ∧ maximumHeadingLength treeL (.num 40)
        = [⟨"Use headings shorter than `40`", Place.node hLong.pos⟩]
    ∧ (Node.toStr h40).length = 40
    ∧ maximumHeadingLength treeL40 (.num 40) = [] := by
  refine ⟨?_, by rfl, by rfl, by rfl, by rfl⟩
  intro tree
  unfold maximumHeadingLength
  apply runRule_const_filterMap
  · intro n _
    rfl
  · intro n _
    show mhlEmit 40 () n = _
    unfold mhlEmit
    split <;> rfl

theorem bool_not_true {b : Bool} (h : (!b) = true) : b = false := by
  cases b
  · rfl
  · simp at h

theorem bool_not_false {b : Bool} (h : (!b) = false) : b = true := by
  cases b
  · simp at h
  · rfl

/-- Looking a key up in the association-list image of a node list finds
the first node whose key matches. -/
theorem lookup_map_key (key : Node → String) :
    ∀ (l : List Node) (k : String),
      List.lookup k (l.map (fun m => (key m, m))) = l.find? (fun m => key m = k)
  | [], _ => rfl
  | m :: l, k => by
      simp only [List.map_cons]
      by_cases h : key m = k
      · rw [List.find?_cons_of_pos _ (by simp [h])]
        simp [List.lookup, h]
      · rw [List.find?_cons_of_neg _ (by simp [h])]
        have hb : (k == key m) = false := by
          rw [beq_eq_false_iff_ne]
          exact fun e => h e.symm
        simp [List.lookup, hb, lookup_map_key key l k]

/-- The no-duplicate-headings fold over non-generated headings, started
from the map image of the headings already seen, is the declarative
most-recent-duplicate walk. -/
theorem ndh_run_spec :
    ∀ (nodes earlier : List Node), (∀ n ∈ nodes, generated n = false) →
      runRule ndhStep ndhEmit (ndhMapOf earlier) nodes = ndhSpec earlier nodes
  | [], _, _ => rfl
  | n :: rest, earlier, hng => by
      rw [runRule_cons]
      have hgen : generated n = false := hng n (by simp)
      have hstep : ndhStep (ndhMapOf earlier) n = ndhMapOf (earlier ++ [n]) := by
        unfold ndhStep ndhMapOf
        rw [if_neg (by simp [hgen])]
        simp
      have hemit : ndhEmit (ndhMapOf earlier) n =
          (match earlier.reverse.find?
              (fun m => jsToUpperCase (Node.toStr m) = jsToUpperCase (Node.toStr n)) with
           | some dup => [ndhMessage dup n]
           | none => []) := by
        unfold ndhEmit ndhMapOf
        rw [if_neg (by simp [hgen]),
          lookup_map_key (fun m => jsToUpperCase (Node.toStr m)) earlier.reverse
            (jsToUpperCase (Node.toStr n))]
      rw [hstep, hemit,
        ndh_run_spec rest (earlier ++ [n]) (fun x hx => hng x (by simp [hx]))]
      rfl

/-- C10: no-duplicate-headings compares headings after uppercasing their
plain text, and a repeated heading's diagnostic cites the most recent
earlier heading with the same normalized content: the rule equals the
declarative most-recent-duplicate walk over the non-generated headings,
and on headings `Foo`, `foo`, `FOO` both later headings are reported, the
third citing the second (3:1), not the first. -/
theorem ndh_uppercase_most_recent :
    (∀ tree : Node,
        noDuplicateHeadings tree
          = ndhSpec [] ((visitK tree "heading").filter (fun n => !(generated n))))
    ∧ Node.toStr hU1 = "Foo" ∧ Node.toStr hU2 = "foo" ∧ Node.toStr hU3 = "FOO"
    ∧ noDuplicateHeadings treeU
        = [⟨"Do not use headings with similar content (1:1)", Place.node hU2.pos⟩,
           ⟨"Do not use headings with similar content (3:1)", Place.node hU3.pos⟩] := by
  refine ⟨?_, by rfl, by rfl, by rfl, by rfl⟩
  intro tree
  unfold noDuplicateHeadings
  rw [runRule_skip_filter ndhStep ndhEmit (fun n => !(generated n))
      (fun s n h => by simp [ndhStep, bool_not_false h])
      (fun s n h => ndhEmit_generated s n (bool_not_false h))]
  rw [show ([] : List (String × Node)) = ndhMapOf [] from rfl]
  apply ndh_run_spec
  intro n hn
  exact bool_not_true (List.mem_filter.mp hn).2

theorem bool_and_not_false {a b : Bool} (h : (!a && !b) = false) : (a || b) = true := by
  cases a <;> cases b <;> simp_all

theorem bool_and_not_true {a b : Bool} (h : (!a && !b) = true) : (a || b) = false := by
  cases a <;> cases b <;> simp_all

/-- The extracted style of a code block is never the empty string, hence
always truthy. -/
theorem codeCurrent_truthy (value : String) (n : Node) :
    jsStrTruthy (some (codeCurrent value n)) = true := by
  unfold codeCurrent
  split <;> rfl

/-- Once `preferred` is a truthy string it never changes. -/
theorem cbsStep_truthy (value : String) (p : Option String) (n : Node)
    (hp : jsStrTruthy p = true) : cbsStep value p n = p := by
  unfold cbsStep
  by_cases h : generated n = true <;> simp [h, hp]

/-- Once `preferred` is a truthy number it never changes. -/
theorem bqStep_truthy (p : Option Int) (n : Node) (hp : jsIntTruthy p = true) :
    bqStep p n = p := by
  unfold bqStep
  by_cases h : (generated n || n.childList.isEmpty) = true <;> simp [h, hp]

/-- C2 counterexample: with the numeric option 0, blockquote-indentation
does not compare the first matching node against 0 — `0` is falsy, so the
rule silently switches to consistent mode (treeT: one blockquote of
indentation 2, no diagnostic); and in fixed mode a non-generated childless
blockquote is skipped, not compared (treeE with option 2, no diagnostic). -/
theorem fixed_style_counterexample :
    check bqT = 2 ∧ generated bqT = false ∧ bqT.childList ≠ []
    ∧ blockquoteIndentation treeT (.num 0) = []
    ∧ check bqE = -1 ∧ generated bqE = false
    ∧ blockquoteIndentation treeE (.num 2) = [] := by
  exact ⟨by decide, by rfl, by decide, by rfl, by decide, by rfl, by rfl⟩

/-- C2 (amended): with an explicit legal style (`"fenced"`/`"indented"`)
for code-block-style, and an explicit nonzero number for
blockquote-indentation, every non-generated matching node that the rule
does not skip (for blockquote-indentation: with at least one child) is
compared against the fixed value, the first included, and a diagnostic is
produced exactly when its extracted style differs; with option `"fenced"`
on a document holding one indented and one fenced code block, exactly one
diagnostic is produced, on the indented block, reading "Code blocks
should be fenced". -/
theorem fixed_style_compares_every_node :
    (∀ (tree : Node) (value : String) (s : String), s = "fenced" ∨ s = "indented" →
        codeBlockStyle tree value (.str s)
          = .ok ((visitK tree "code").filterMap (fun n =>
              if generated n then none
              else if codeCurrent value n = s then none
              else some (cbsMessage s n))))
    ∧ (∀ (tree : Node) (p : Int), p ≠ 0 →
        blockquoteIndentation tree (.num p)
          = (visitK tree "blockquote").filterMap (fun n =>
              if generated n || n.childList.isEmpty then none
              else if check n = p then none
              else some (bqMessage p n)))
    ∧ codeBlockStyle treeA docA (.str "fenced")
        = .ok [⟨"Code blocks should be fenced", Place.node code1.pos⟩] := by
  refine ⟨?_, ?_, by rfl⟩
  · intro tree value s hs
    have hsc : s ≠ "consistent" := by rcases hs with h | h <;> simp [h]
    have hne : s ≠ "" := by rcases hs with h | h <;> simp [h]
    have hsty : stylesHas s = true := by rcases hs with h | h <;> simp [stylesHas, h]
    have htr : jsStrTruthy (some s) = true := by simp [jsStrTruthy, hne]
    have hpref : cbsPreferred (.str s) = some s := by simp [cbsPreferred, hsc]
    rw [codeBlockStyle_ok tree value (.str s) (by rw [hpref]; exact hsty), hpref]
    congr 1
    apply runRule_const_filterMap
    · intro n _
      exact cbsStep_truthy value (some s) n htr
    · intro n _
      by_cases hg : generated n = true
      · simp [cbsEmit, hg]
      · have hg' : generated n = false := by revert hg; cases generated n <;> simp
        by_cases he : codeCurrent value n = s
        · simp [cbsEmit, hg', htr, prefKey, he]
        · have hne2 : s ≠ codeCurrent value n := fun e => he e.symm
          simp [cbsEmit, hg', htr, prefKey, he, hne2]
  · intro tree p hp
    have htr : jsIntTruthy (some p) = true := by simp [jsIntTruthy, hp]
    unfold blockquoteIndentation
    rw [show bqPreferred (.num p) = some p from rfl]
    apply runRule_const_filterMap
    · intro n _
      exact bqStep_truthy (some p) n htr
    · intro n _
      by_cases hsk : (generated n || n.childList.isEmpty) = true
      · simp [bqEmit, hsk]
      · have hsk' : (generated n || n.childList.isEmpty) = false := by
          revert hsk; cases (generated n || n.childList.isEmpty) <;> simp
        by_cases he : check n = p
        · have hz : p - check n = 0 := by omega
          simp [bqEmit, hsk', htr, hz, he]
        · have hz : ¬(p - check n = 0) := by omega
          simp [bqEmit, hsk', htr, hz, he]

/-- C2 witness: the fixed-mode characterizations at option `"fenced"` on
the two-code-block document and at option 4 on the three-blockquote
document. -/
theorem fixed_style_witness :
    codeBlockStyle treeA docA (.str "fenced")
        = .ok ((visitK treeA "code").filterMap (fun n =>
            if generated n then none
            else if codeCurrent docA n = "fenced" then none
            else some (cbsMessage "fenced" n)))
    ∧ blockquoteIndentation treeB (.num 4)
        = (visitK treeB "blockquote").filterMap (fun n =>
            if generated n || n.childList.isEmpty then none
            else if check n = 4 then none
            else some (bqMessage 4 n)) :=
  ⟨fixed_style_compares_every_node.1 treeA docA "fenced" (Or.inl rfl),
   fixed_style_compares_every_node.2.1 treeB 4 (by decide)⟩

/-- C1 counterexample: under consistent mode, the first non-generated
matching blockquote of treeZ extracts style 0 and the second extracts
style 2 — the styles differ, yet the rule reports nothing, because the
falsy first style does not become the preferred style. -/
theorem consistent_mode_counterexample :
    visitK treeZ "blockquote" = [bqZ, bqT]
    ∧ generated bqZ = false ∧ bqZ.childList ≠ []
    ∧ check bqZ = 0 ∧ check bqT = 2
    ∧ blockquoteIndentation treeZ .undef = [] := by
  exact ⟨by rfl, by rfl, by decide, by decide, by decide, by rfl⟩

/-- C1 (amended): in consistent mode (option absent or `"consistent"`),
the first non-skipped matching node never produces a diagnostic and, for
code-block-style, each later node is reported exactly when its style
differs from the first's; for blockquote-indentation the same holds of
the non-generated nonempty blockquotes provided the first's extracted
indentation is truthy (nonzero). -/
theorem consistent_mode_first_sets_style (tree : Node) (value : String) (opt : JsOption)
    (hopt : opt = .undef ∨ opt = .str "consistent") :
    (codeBlockStyle tree value opt
        = .ok (match (visitK tree "code").filter (fun n => !(generated n)) with
               | [] => []
               | n0 :: rest => rest.filterMap (fun n =>
                   if codeCurrent value n = codeCurrent value n0 then none
                   else some (cbsMessage (codeCurrent value n0) n))))
    ∧ (∀ n0 rest,
        (visitK tree "blockquote").filter
            (fun n => !(generated n) && !(n.childList.isEmpty)) = n0 :: rest →
        check n0 ≠ 0 →
        blockquoteIndentation tree opt
          = rest.filterMap (fun n =>
              if check n = check n0 then none
              else some (bqMessage (check n0) n))) := by
  have hprefc : cbsPreferred opt = none := by
    rcases hopt with h | h <;> (subst h; rfl)
  have hprefb : bqPreferred opt = none := by
    rcases hopt with h | h <;> (subst h; rfl)
  constructor
  · rw [codeBlockStyle_ok tree value opt (by rw [hprefc]; rfl), hprefc]
    congr 1
    rw [runRule_skip_filter (cbsStep value) (cbsEmit value) (fun n => !(generated n))
        (fun s n h => by simp [cbsStep, bool_not_false h])
        (fun s n h => cbsEmit_generated value s n (bool_not_false h))]
    cases hl : (visitK tree "code").filter (fun n => !(generated n)) with
    | nil => rfl
    | cons n0 rest =>
        have hg0 : generated n0 = false := by
          have : n0 ∈ (visitK tree "code").filter (fun n => !(generated n)) := by
            rw [hl]; exact List.mem_cons_self n0 rest
          exact bool_not_true (List.mem_filter.mp this).2
        rw [runRule_cons]
        rw [show cbsEmit value none n0 = [] from by simp [cbsEmit, jsStrTruthy]]
        rw [show cbsStep value none n0 = some (codeCurrent value n0) from by
          simp [cbsStep, hg0, jsStrTruthy]]
        simp only [List.nil_append]
        apply runRule_const_filterMap
        · intro n _
          exact cbsStep_truthy value _ n (codeCurrent_truthy value n0)
        · intro n hn
          have hgn : generated n = false := by
            have : n ∈ (visitK tree "code").filter (fun x => !(generated x)) := by
              rw [hl]; exact List.mem_cons_of_mem n0 hn
            exact bool_not_true (List.mem_filter.mp this).2
          have htr := codeCurrent_truthy value n0
          by_cases he : codeCurrent value n = codeCurrent value n0
          · simp [cbsEmit, hgn, htr, prefKey, he]
          · have hne2 : codeCurrent value n0 ≠ codeCurrent value n := fun e => he e.symm
            simp [cbsEmit, hgn, htr, prefKey, he, hne2]
  · intro n0 rest hl h0
    unfold blockquoteIndentation
    rw [hprefb]
    rw [runRule_skip_filter bqStep bqEmit (fun n => !(generated n) && !(n.childList.isEmpty))
        (fun s n h => by simp [bqStep, bool_and_not_false h])
        (fun s n h => by simp [bqEmit, bool_and_not_false h])]
    rw [hl, runRule_cons]
    have hsk0 : (generated n0 || n0.childList.isEmpty) = false := by
      have : n0 ∈ (visitK tree "blockquote").filter
          (fun n => !(generated n) && !(n.childList.isEmpty)) := by
        rw [hl]; exact List.mem_cons_self n0 rest
      exact bool_and_not_true (List.mem_filter.mp this).2
    rw [show bqEmit none n0 = [] from by simp [bqEmit, jsIntTruthy]]
    rw [show bqStep none n0 = some (check n0) from by simp [bqStep, hsk0, jsIntTruthy]]
    simp only [List.nil_append]
    have htr : jsIntTruthy (some (check n0)) = true := by simp [jsIntTruthy, h0]
    apply runRule_const_filterMap
    · intro n _
      exact bqStep_truthy _ n htr
    · intro n hn
      have hskn : (generated n || n.childList.isEmpty) = false := by
        have : n ∈ (visitK tree "blockquote").filter
            (fun x => !(generated x) && !(x.childList.isEmpty)) := by
          rw [hl]; exact List.mem_cons_of_mem n0 hn
        exact bool_and_not_true (List.mem_filter.mp this).2
      by_cases he : check n = check n0
      · have hz : check n0 - check n = 0 := by omega
        simp [bqEmit, hskn, htr, hz, he]
      · have hz : ¬(check n0 - check n = 0) := by omega
        simp [bqEmit, hskn, htr, hz, he]

/-- C1 witness: the consistent-mode characterizations on the
two-code-block document and on the three-blockquote document (whose first
blockquote extracts the truthy indentation 3). -/
theorem consistent_mode_witness :
    (codeBlockStyle treeA docA .undef
        = .ok (match (visitK treeA "code").filter (fun n => !(generated n)) with
               | [] => []
               | n0 :: rest => rest.filterMap (fun n =>
                   if codeCurrent docA n = codeCurrent docA n0 then none
                   else some (cbsMessage (codeCurrent docA n0) n))))
    ∧ blockquoteIndentation treeB .undef
        = [bq2, bq3].filterMap (fun n =>
            if check n = check bq1 then none
            else some (bqMessage (check bq1) n)) :=
  ⟨(consistent_mode_first_sets_style treeA docA .undef (Or.inl rfl)).1,
   (consistent_mode_first_sets_style treeB "" .undef (Or.inl rfl)).2 bq1 [bq2, bq3]
     (by rfl) (by decide)⟩

/-! ## Document order of the preorder traversal of a well-formed tree -/

theorem preorder_eq (k : String) (v lg : Option String) (c : Option Bool)
    (p : Option Position) (ch : NodeList) :
    Node.preorder (.mk k v lg c p ch) = .mk k v lg c p ch :: NodeList.preorderL ch := by
  rw [Node.preorder]

theorem childList_mk (k : String) (v lg : Option String) (c : Option Bool)
    (p : Option Position) (ch : NodeList) :
    Node.childList (.mk k v lg c p ch) = ch.toList := rfl

theorem mem_preorderL (x : Node) :
    ∀ l : NodeList, x ∈ NodeList.preorderL l ↔ ∃ c ∈ l.toList, x ∈ c.preorder
  | .nil => by simp [NodeList.preorderL, NodeList.toList]
  | .cons h t => by
      rw [NodeList.preorderL]
      constructor
      · intro hx
        rcases List.mem_append.mp hx with hx | hx
        · exact ⟨h, by simp [NodeList.toList], hx⟩
        · obtain ⟨c, hc, hxc⟩ := (mem_preorderL x t).mp hx
          exact ⟨c, by simp [NodeList.toList, hc], hxc⟩
      · rintro ⟨c, hc, hxc⟩
        rcases List.mem_cons.mp hc with rfl | hc'
        · exact List.mem_append.mpr (Or.inl hxc)
        · exact List.mem_append.mpr (Or.inr ((mem_preorderL x t).mpr ⟨c, hc', hxc⟩))

theorem self_mem_preorder (n : Node) : n ∈ n.preorder := by
  cases n with
  | mk k v lg c p ch =>
      rw [preorder_eq]
      exact List.mem_cons_self _ _

theorem mem_preorder_of_child {n c x : Node} (hc : c ∈ n.childList) (hx : x ∈ c.preorder) :
    x ∈ n.preorder := by
  cases n with
  | mk k v lg ck p ch =>
      rw [preorder_eq]
      rw [childList_mk] at hc
      exact List.mem_cons_of_mem _ ((mem_preorderL x ch).mpr ⟨c, hc, hx⟩)

mutual
theorem preorder_trans : ∀ (n : Node), ∀ x ∈ n.preorder, ∀ y ∈ x.preorder, y ∈ n.preorder
  | .mk k v lg c p ch => by
      intro x hx y hy
      rw [preorder_eq] at hx ⊢
      rcases List.mem_cons.mp hx with rfl | hx'
      · rw [preorder_eq] at hy
        exact hy
      · exact List.mem_cons_of_mem _ (preorderL_trans ch x hx' y hy)

theorem preorderL_trans : ∀ (l : NodeList), ∀ x ∈ NodeList.preorderL l, ∀ y ∈ x.preorder,
    y ∈ NodeList.preorderL l
  | .nil => by intro x hx; rw [NodeList.preorderL] at hx; simp at hx
  | .cons h t => by
      intro x hx y hy
      rw [NodeList.preorderL] at hx ⊢
      rcases List.mem_append.mp hx with hx' | hx'
      · exact List.mem_append.mpr (Or.inl (preorder_trans h x hx' y hy))
      · exact List.mem_append.mpr (Or.inr (preorderL_trans t x hx' y hy))
end

theorem nodeOk_of_all {n x : Node} (h : ∀ z ∈ n.preorder, nodeOk z = true)
    (hx : x ∈ n.preorder) : nodeOk x = true := h x hx

/-- The parts of `nodeOk`. -/
theorem nodeOk_spec {n : Node} (h : nodeOk n = true) :
    generated n = false ∧ n.startOff ≤ n.stopOff
    ∧ (∀ c ∈ n.childList, n.startOff ≤ c.startOff ∧ c.stopOff ≤ n.stopOff)
    ∧ spansOrdered n.childList = true := by
  unfold nodeOk at h
  simp only [Bool.and_eq_true, List.all_eq_true, Bool.and_eq_true, decide_eq_true_eq] at h
  obtain ⟨⟨⟨⟨hpos, hng⟩, hse⟩, hch⟩, hord⟩ := h
  refine ⟨bool_not_true hng, hse, ?_, hord⟩
  intro c hc
  have := hch c hc
  simp only [Bool.and_eq_true, decide_eq_true_eq] at this
  exact this

theorem spansOrdered_cons {a b : Node} {r : List Node}
    (h : spansOrdered (a :: b :: r) = true) :
    a.stopOff ≤ b.startOff ∧ spansOrdered (b :: r) = true := by
  unfold spansOrdered at h
  obtain ⟨h1, h2⟩ := (Bool.and_eq_true _ _).mp h
  exact ⟨by exact_mod_cast decide_eq_true_eq.mp h1, h2⟩

theorem spansOrdered_head_le {a : Node} :
    ∀ {l : List Node}, spansOrdered (a :: l) = true →
      (∀ c ∈ l, c.startOff ≤ c.stopOff) → ∀ c ∈ l, a.stopOff ≤ c.startOff := by
  intro l
  induction l generalizing a with
  | nil =>
      intro _ _ c hc
      simp at hc
  | cons b r ih =>
      intro h hs c hc
      obtain ⟨h1, h2⟩ := spansOrdered_cons h
      rcases List.mem_cons.mp hc with rfl | hc'
      · exact h1
      · have hbs : b.startOff ≤ b.stopOff := hs b (by simp)
        have := ih h2 (fun x hx => hs x (by simp [hx])) c hc'
        omega

theorem spansOrdered_first_le {a : Node} {l : List Node}
    (h : spansOrdered (a :: l) = true)
    (hs : ∀ c ∈ a :: l, c.startOff ≤ c.stopOff) : ∀ c ∈ a :: l, a.startOff ≤ c.startOff := by
  intro c hc
  rcases List.mem_cons.mp hc with rfl | hc'
  · exact le_refl _
  · have h1 := spansOrdered_head_le h (fun x hx => hs x (by simp [hx])) c hc'
    have h2 := hs a (by simp)
    omega

mutual
/-- In a tree all of whose nodes are locally well-formed, every preorder
descendant lies inside the root's span. -/
theorem preorder_spans : ∀ (n : Node), (∀ z ∈ n.preorder, nodeOk z = true) →
    ∀ x ∈ n.preorder, n.startOff ≤ x.startOff ∧ x.stopOff ≤ n.stopOff
  | .mk k v lg c p ch => by
      intro hall x hx
      rw [preorder_eq] at hx
      rcases List.mem_cons.mp hx with rfl | hx'
      · exact ⟨le_refl _, le_refl _⟩
      · have hallL : ∀ z ∈ NodeList.preorderL ch, nodeOk z = true := fun z hz =>
          hall z (by rw [preorder_eq]; exact List.mem_cons_of_mem _ hz)
        obtain ⟨c0, hc0, hb⟩ := preorderL_spans ch hallL x hx'
        have hok : nodeOk (Node.mk k v lg c p ch) = true :=
          hall _ (by rw [preorder_eq]; exact List.mem_cons_self _ _)
        have hch := (nodeOk_spec hok).2.2.1 c0 (by rw [childList_mk]; exact hc0)
        constructor
        · exact le_trans (le_trans hch.1 (le_refl _)) hb.1
        · exact le_trans hb.2 hch.2

theorem preorderL_spans : ∀ (l : NodeList), (∀ z ∈ NodeList.preorderL l, nodeOk z = true) →
    ∀ x ∈ NodeList.preorderL l, ∃ c ∈ l.toList, c.startOff ≤ x.startOff ∧ x.stopOff ≤ c.stopOff
  | .nil => by
      intro _ x hx
      rw [NodeList.preorderL] at hx
      simp at hx
  | .cons h t => by
      intro hall x hx
      rw [NodeList.preorderL] at hx
      rcases List.mem_append.mp hx with hx' | hx'
      · have := preorder_spans h (fun z hz =>
          hall z (by rw [NodeList.preorderL]; exact List.mem_append.mpr (Or.inl hz))) x hx'
        exact ⟨h, by simp [NodeList.toList], this⟩
      · obtain ⟨c0, hc0, hb⟩ := preorderL_spans t (fun z hz =>
          hall z (by rw [NodeList.preorderL]; exact List.mem_append.mpr (Or.inr hz))) x hx'
        exact ⟨c0, by simp [NodeList.toList, hc0], hb⟩
end

/-- The anchor lower bound of a locally well-formed node is at or after
its start. -/
theorem start_le_low {n : Node} (hok : nodeOk n = true) : n.startOff ≤ low n := by
  unfold low
  cases hc : n.childList with
  | nil => exact (nodeOk_spec hok).2.1
  | cons c r =>
      exact ((nodeOk_spec hok).2.2.1 c (by rw [hc]; simp)).1

/-- The anchor lower bound of a locally well-formed node (whose children
are locally well-formed too) is at or before its end. -/
theorem low_le_stop {n : Node} (hok : nodeOk n = true)
    (hchild : ∀ c ∈ n.childList, c.startOff ≤ c.stopOff) : low n ≤ n.stopOff := by
  unfold low
  cases hc : n.childList with
  | nil => exact le_refl _
  | cons c r =>
      have h1 := ((nodeOk_spec hok).2.2.1 c (by rw [hc]; simp)).2
      have h2 := hchild c (by rw [hc]; simp)
      show c.startOff ≤ n.stopOff
      omega

mutual
/-- The preorder of a tree all of whose nodes are locally well-formed is
pairwise ordered: each node's anchor lower bound is at or before every
later node's start. -/
theorem preorder_pairwise : ∀ (n : Node), (∀ z ∈ n.preorder, nodeOk z = true) →
    n.preorder.Pairwise (fun a b => low a ≤ b.startOff)
  | .mk k v lg c p ch => by
      intro hall
      rw [preorder_eq]
      have hn : nodeOk (Node.mk k v lg c p ch) = true :=
        hall _ (by rw [preorder_eq]; exact List.mem_cons_self _ _)
      have hallL : ∀ z ∈ NodeList.preorderL ch, nodeOk z = true := fun z hz =>
        hall z (by rw [preorder_eq]; exact List.mem_cons_of_mem _ hz)
      refine List.pairwise_cons.mpr ⟨?_, preorderL_pairwise ch hallL
        (by have := (nodeOk_spec hn).2.2.2; rw [childList_mk] at this; exact this)⟩
      intro b hb
      obtain ⟨c0, hc0, hbnd⟩ := preorderL_spans ch hallL b hb
      have hord : spansOrdered ch.toList = true := by
        have := (nodeOk_spec hn).2.2.2
        rw [childList_mk] at this
        exact this
      have hstart : ∀ x ∈ ch.toList, x.startOff ≤ x.stopOff := fun x hx =>
        (nodeOk_spec (hallL x ((mem_preorderL x ch).mpr ⟨x, hx, self_mem_preorder x⟩))).2.1
      cases hcl : ch.toList with
      | nil => rw [hcl] at hc0; simp at hc0
      | cons c1 r =>
          have hfirst : c1.startOff ≤ c0.startOff := by
            have := spansOrdered_first_le (by rw [hcl] at hord; exact hord)
              (fun x hx => hstart x (by rw [hcl]; exact hx)) c0 (by rw [hcl] at hc0; exact hc0)
            exact this
          have hlow : low (Node.mk k v lg c p ch) = c1.startOff := by
            unfold low
            rw [childList_mk, hcl]
          rw [hlow]
          exact le_trans hfirst hbnd.1

theorem preorderL_pairwise : ∀ (l : NodeList),
    (∀ z ∈ NodeList.preorderL l, nodeOk z = true) → spansOrdered l.toList = true →
    (NodeList.preorderL l).Pairwise (fun a b => low a ≤ b.startOff)
  | .nil => by
      intro _ _
      rw [NodeList.preorderL]
      exact List.Pairwise.nil
  | .cons h t => by
      intro hall hord
      rw [NodeList.preorderL]
      have hallh : ∀ z ∈ h.preorder, nodeOk z = true := fun z hz =>
        hall z (by rw [NodeList.preorderL]; exact List.mem_append.mpr (Or.inl hz))
      have hallt : ∀ z ∈ NodeList.preorderL t, nodeOk z = true := fun z hz =>
        hall z (by rw [NodeList.preorderL]; exact List.mem_append.mpr (Or.inr hz))
      have hordt : spansOrdered t.toList = true := by
        rw [show (NodeList.cons h t).toList = h :: t.toList from rfl] at hord
        cases hct : t.toList with
        | nil => rfl
        | cons b r =>
            rw [hct] at hord
            exact (spansOrdered_cons hord).2
      refine List.pairwise_append.mpr ⟨preorder_pairwise h hallh,
        preorderL_pairwise t hallt hordt, ?_⟩
      intro a ha b hb
      have hstart_t : ∀ x ∈ t.toList, x.startOff ≤ x.stopOff := fun x hx =>
        (nodeOk_spec (hallt x ((mem_preorderL x t).mpr ⟨x, hx, self_mem_preorder x⟩))).2.1
      have hha : nodeOk a = true := hallh a ha
      have hlowa : low a ≤ a.stopOff := by
        apply low_le_stop hha
        intro ca hca
        have hcain : ca ∈ h.preorder :=
          preorder_trans h a ha ca (mem_preorder_of_child hca (self_mem_preorder ca))
        exact (nodeOk_spec (hallh ca hcain)).2.1
      have hstop : a.stopOff ≤ h.stopOff := (preorder_spans h hallh a ha).2
      obtain ⟨cb, hcb, hbnd⟩ := preorderL_spans t hallt b hb
      have hht : h.stopOff ≤ cb.startOff := by
        have := spansOrdered_head_le
          (show spansOrdered (h :: t.toList) = true from hord) hstart_t cb hcb
        exact this
      have := hbnd.1
      omega
end

/-- The preorder of a well-formed tree is pairwise document-ordered. -/
theorem wf_pairwise (tree : Node) (h : wfB tree = true) :
    tree.preorder.Pairwise (fun a b => low a ≤ b.startOff) :=
  preorder_pairwise tree (fun z hz => List.all_eq_true.mp h z hz)

/-- A rule whose callback anchors every message it emits at a fixed
per-node offset reports, over a visit whose anchors are nondecreasing, a
message list with nondecreasing start offsets. -/
theorem runRule_pairwise {σ : Type} (stepState : σ → Node → σ) (emit : σ → Node → List Message)
    (off : Node → Nat) :
    ∀ (nodes : List Node) (s : σ),
      (∀ s' n, n ∈ nodes → ∀ m ∈ emit s' n, m.startOffset = off n) →
      nodes.Pairwise (fun a b => off a ≤ off b) →
      (runRule stepState emit s nodes).Pairwise
        (fun m1 m2 => m1.startOffset ≤ m2.startOffset)
  | [], s, _, _ => by
      rw [runRule_nil]
      exact List.Pairwise.nil
  | n :: ns, s, hemit, hp => by
      rw [runRule_cons]
      refine List.pairwise_append.mpr ⟨?_, ?_, ?_⟩
      · apply List.pairwise_of_forall_mem_list
        intro m hm m' hm'
        rw [hemit s n (by simp) m hm, hemit s n (by simp) m' hm']
      · exact runRule_pairwise stepState emit off ns (stepState s n)
          (fun s' x hx m hm => hemit s' x (by simp [hx]) m hm)
          (List.pairwise_cons.mp hp).2
      · intro m hm m' hm'
        have h1 : m.startOffset = off n := hemit s n (by simp) m hm
        obtain ⟨s', x, hx, hmx⟩ := runRule_mem stepState emit ns (stepState s n) m' hm'
        have h2 : m'.startOffset = off x := hemit s' x (by simp [hx]) m' hmx
        have h3 : off n ≤ off x := (List.pairwise_cons.mp hp).1 x hx
        omega

/-- A node that is not generated carries a position. -/
theorem pos_of_not_generated {n : Node} (h : generated n = false) : ∃ p, n.pos = some p := by
  unfold generated at h
  cases hp : n.pos with
  | none =>
      rw [hp] at h
      simp at h
  | some p => exact ⟨p, rfl⟩

/-- A message anchored at a positioned node starts at the node's start
offset. -/
theorem startOffset_node {t : String} {n : Node} {p : Position} (hp : n.pos = some p) :
    Message.startOffset ⟨t, Place.node n.pos⟩ = n.startOff := by
  rw [hp]
  show p.start.offset = n.startOff
  unfold Node.startOff pointStart
  rw [hp]

theorem cbsEmit_offset (value : String) (s : Option String) (n : Node) (m : Message)
    (hm : m ∈ cbsEmit value s n) : m.startOffset = n.startOff := by
  unfold cbsEmit at hm
  by_cases hg : generated n = true
  · rw [if_pos hg] at hm
    simp at hm
  · have hg' : generated n = false := eq_false_of_ne_true hg
    rw [if_neg hg] at hm
    by_cases ht : jsStrTruthy s = true
    · rw [if_pos ht] at hm
      by_cases hc : prefKey s ≠ codeCurrent value n
      · rw [if_pos hc] at hm
        simp only [List.mem_singleton] at hm
        subst hm
        obtain ⟨p, hp⟩ := pos_of_not_generated hg'
        exact startOffset_node hp
      · rw [if_neg hc] at hm
        simp at hm
    · rw [if_neg ht] at hm
      simp at hm

theorem bqEmit_offset (s : Option Int) (n : Node) (m : Message) (hm : m ∈ bqEmit s n) :
    m.startOffset = low n := by
  unfold bqEmit at hm
  by_cases hsk : (generated n || n.childList.isEmpty) = true
  · rw [if_pos hsk] at hm
    simp at hm
  · have hsk' : (generated n || n.childList.isEmpty) = false := eq_false_of_ne_true hsk
    rw [if_neg hsk] at hm
    by_cases ht : jsIntTruthy s = true
    · rw [if_pos ht] at hm
      by_cases hz : (s.getD 0) - check n = 0
      · rw [if_pos hz] at hm
        simp at hm
      · rw [if_neg hz] at hm
        simp only [List.mem_singleton] at hm
        subst hm
        cases hc : n.childList with
        | nil =>
            exfalso
            rw [Bool.or_eq_false_iff] at hsk'
            have h2 := hsk'.2
            rw [hc] at h2
            simp at h2
        | cons c r =>
            unfold bqMessage
            rw [hc]
            show (pointStart c).offset = low n
            unfold low
            rw [hc]
            rfl
    · rw [if_neg ht] at hm
      simp at hm

theorem mhlEmit_offset (p : Int) (u : Unit) (n : Node) (m : Message)
    (hm : m ∈ mhlEmit p u n) : m.startOffset = n.startOff := by
  unfold mhlEmit at hm
  by_cases hcond : (!(generated n) && decide (p < ((Node.toStr n).length : Int))) = true
  · rw [if_pos hcond] at hm
    simp only [List.mem_singleton] at hm
    subst hm
    have hg : generated n = false := bool_not_true ((Bool.and_eq_true _ _).mp hcond).1
    obtain ⟨pp, hpp⟩ := pos_of_not_generated hg
    exact startOffset_node hpp
  · rw [if_neg hcond] at hm
    simp at hm

theorem ndhEmit_offset (s : List (String × Node)) (n : Node) (m : Message)
    (hm : m ∈ ndhEmit s n) : m.startOffset = n.startOff := by
  unfold ndhEmit at hm
  by_cases hg : generated n = true
  · rw [if_pos hg] at hm
    simp at hm
  · have hg' : generated n = false := eq_false_of_ne_true hg
    obtain ⟨p, hp⟩ := pos_of_not_generated hg'
    rw [if_neg hg] at hm
    revert hm
    split <;> intro hm
    · simp only [List.mem_singleton] at hm
      subst hm
      exact startOffset_node hp
    · simp at hm

theorem cciEmit_offset (value : String) (u : Unit) (n : Node) (m : Message)
    (hm : m ∈ cciEmit value u n) (hlen : low n ≤ value.length) :
    m.startOffset = low n := by
  cases hc : n.childList with
  | nil =>
      have hlow : low n = (pointEnd n).offset := by
        unfold low
        rw [hc]
        rfl
      simp only [cciEmit, hc] at hm
      rw [← hlow] at hm
      split at hm
      · simp at hm
      · split at hm
        · simp at hm
        · split at hm
          · simp only [List.mem_singleton] at hm
            subst hm
            unfold toPoint
            rw [if_pos hlen]
            rfl
          · simp at hm
  | cons c r =>
      have hlow : low n = (pointStart c).offset := by
        unfold low
        rw [hc]
        rfl
      simp only [cciEmit, hc] at hm
      rw [← hlow] at hm
      split at hm
      · simp at hm
      · split at hm
        · simp at hm
        · split at hm
          · simp only [List.mem_singleton] at hm
            subst hm
            unfold toPoint
            rw [if_pos hlen]
            rfl
          · simp at hm

/-- C8: a single rule run once over a single well-formed document (whose
offsets lie within the source text) emits its diagnostics in nondecreasing
order of start offset, for each of the five rules. -/
theorem diagnostics_sorted (tree : Node) (value : String) (opt : JsOption)
    (hwf : wfB tree = true) (hlen : tree.stopOff ≤ value.length) :
    (cbsMessages (codeBlockStyle tree value opt)).Pairwise
        (fun m1 m2 => m1.startOffset ≤ m2.startOffset)
    ∧ (blockquoteIndentation tree opt).Pairwise (fun m1 m2 => m1.startOffset ≤ m2.startOffset)
    ∧ (maximumHeadingLength tree opt).Pairwise (fun m1 m2 => m1.startOffset ≤ m2.startOffset)
    ∧ (noDuplicateHeadings tree).Pairwise (fun m1 m2 => m1.startOffset ≤ m2.startOffset)
    ∧ (checkboxContentIndent tree value).Pairwise
        (fun m1 m2 => m1.startOffset ≤ m2.startOffset) := by
  have hall : ∀ z ∈ tree.preorder, nodeOk z = true := fun z hz =>
    List.all_eq_true.mp hwf z hz
  have hmem : ∀ (k : String) (x : Node), x ∈ visitK tree k → x ∈ tree.preorder :=
    fun k x hx => (List.mem_filter.mp hx).1
  have hok : ∀ (k : String) (x : Node), x ∈ visitK tree k → nodeOk x = true :=
    fun k x hx => hall x (hmem k x hx)
  have hchild : ∀ x ∈ tree.preorder, ∀ c ∈ x.childList, c.startOff ≤ c.stopOff := by
    intro x hx c hc
    have hcm : c ∈ tree.preorder :=
      preorder_trans tree x hx c (mem_preorder_of_child hc (self_mem_preorder c))
    exact (nodeOk_spec (hall c hcm)).2.1
  have hlowstop : ∀ x ∈ tree.preorder, low x ≤ x.stopOff := fun x hx =>
    low_le_stop (hall x hx) (fun c hc => hchild x hx c hc)
  have hlowlen : ∀ x ∈ tree.preorder, low x ≤ value.length := by
    intro x hx
    have h1 := hlowstop x hx
    have h2 := (preorder_spans tree hall x hx).2
    omega
  have hpw : ∀ k : String, (visitK tree k).Pairwise (fun a b => low a ≤ b.startOff) :=
    fun k => (wf_pairwise tree hwf).filter _
  have hpw_start : ∀ k : String,
      (visitK tree k).Pairwise (fun a b => a.startOff ≤ b.startOff) := fun k =>
    (hpw k).imp_of_mem (fun {a b} ha hb hr => le_trans (start_le_low (hok k a ha)) hr)
  have hpw_low : ∀ k : String, (visitK tree k).Pairwise (fun a b => low a ≤ low b) :=
    fun k => (hpw k).imp_of_mem (fun {a b} ha hb hr =>
      le_trans hr (start_le_low (hok k b hb)))
  refine ⟨?_, ?_, ?_, ?_, ?_⟩
  · by_cases hv : stylesHas (prefKey (cbsPreferred opt)) = true
    · rw [codeBlockStyle_ok tree value opt hv]
      exact runRule_pairwise _ _ Node.startOff _ _
        (fun s' n _ m hm => cbsEmit_offset value s' n m hm) (hpw_start "code")
    · rw [codeBlockStyle_error tree value opt (eq_false_of_ne_true hv)]
      exact List.Pairwise.nil
  · unfold blockquoteIndentation
    exact runRule_pairwise _ _ low _ _
      (fun s' n _ m hm => bqEmit_offset s' n m hm) (hpw_low "blockquote")
  · unfold maximumHeadingLength
    exact runRule_pairwise _ _ Node.startOff _ _
      (fun s' n _ m hm => mhlEmit_offset (mhlPreferred opt) s' n m hm) (hpw_start "heading")
  · unfold noDuplicateHeadings
    exact runRule_pairwise _ _ Node.startOff _ _
      (fun s' n _ m hm => ndhEmit_offset s' n m hm) (hpw_start "heading")
  · unfold checkboxContentIndent
    exact runRule_pairwise _ _ low _ _
      (fun s' n hn m hm => cciEmit_offset value s' n m hm (hlowlen n (hmem "listItem" n hn)))
      (hpw_low "listItem")

/-- C8 witness: the blockquote document (diagnostics at offsets 26 and 48)
and the checkbox document (diagnostics at offsets 22, 39 and 57) are
well-formed and their rule outputs come out sorted. -/
theorem diagnostics_sorted_witness :
    (wfB treeB = true ∧ wfB treeC = true ∧ Node.stopOff treeC ≤ docC.length)
    ∧ (blockquoteIndentation treeB .undef).Pairwise
        (fun m1 m2 => m1.startOffset ≤ m2.startOffset)
    ∧ (checkboxContentIndent treeC docC).Pairwise
        (fun m1 m2 => m1.startOffset ≤ m2.startOffset) :=
  ⟨⟨by decide, by decide, by decide⟩,
   (diagnostics_sorted treeB docC .undef (by decide) (by decide)).2.1,
   (diagnostics_sorted treeC docC .undef (by decide) (by decide)).2.2.2.2⟩

end Remark
